import Mathlib

/-!
Verification of the Minichess `GameTree` library (`game_tree.py`) and the
tree-consuming player strategies (`part1.py`, `part2.py`, `part3.py`).

Python floats are modelled as rationals (the code only adds, divides, takes
max/min and compares probabilities).  Python's in-place mutation is modelled
by state passing: every mutating method becomes a function returning the new
tree, and each player's mutable `_game_tree` field becomes an explicit
`Option GameTree` value threaded through `make_move`.  Calls to
`random.choice` / `random.uniform` are modelled by an `Oracle` record that
supplies the index (resp. the drawn number) that the random source returns.
-/

set_option maxHeartbeats 1000000

/-- `GAME_START_MOVE = '*'` from `game_tree.py`. -/
def GAME_START_MOVE : String := "*"

/-- The `GameTree` class of `game_tree.py`: a move label, whose turn it is
after that move, the cached white-win probability, and the private list
`_subtrees`. -/
inductive GameTree : Type where
  | mk (move : String) (is_white_move : Bool) (white_win_probability : ℚ)
      (subtrees : List GameTree) : GameTree

/-- Attribute `self.move`. -/
def GameTree.move : GameTree → String
  | .mk m _ _ _ => m

/-- Attribute `self.is_white_move`. -/
def GameTree.is_white_move : GameTree → Bool
  | .mk _ w _ _ => w

/-- Attribute `self.white_win_probability`. -/
def GameTree.white_win_probability : GameTree → ℚ
  | .mk _ _ p _ => p

/-- Private attribute `self._subtrees`. -/
def GameTree.subtrees : GameTree → List GameTree
  | .mk _ _ _ s => s

instance : Inhabited GameTree := ⟨GameTree.mk GAME_START_MOVE true 0 []⟩

/-- `GameTree.get_subtrees`: returns `self._subtrees`. -/
def GameTree.get_subtrees (t : GameTree) : List GameTree := t.subtrees

/-- `GameTree.find_subtree_by_move`: linear scan over `_subtrees`, returning
the first subtree whose move equals the argument, or `None`. -/
def GameTree.find_subtree_by_move (t : GameTree) (mv : String) : Option GameTree :=
  t.subtrees.find? (fun subtree => subtree.move == mv)

/-- Python `max(tree.white_win_probability for tree in self._subtrees)`,
evaluated on a nonempty list (a left fold of `max` seeded with the head). -/
def maxProbs : List GameTree → ℚ
  | [] => 0
  | c :: cs => cs.foldl (fun a s => max a s.white_win_probability) c.white_win_probability

/-- `GameTree._update_white_win_probability`: no children means no change;
on White's move take the max over the children; on Black's move run the
`sum_probs` / `count` accumulation loop and divide. -/
def GameTree.update_white_win_probability (t : GameTree) : GameTree :=
  match t with
  | .mk m w p [] => .mk m w p []
  | .mk m w _ (c :: cs) =>
    if w then
      .mk m w (maxProbs (c :: cs)) (c :: cs)
    else
      let sum_probs : ℚ := (c :: cs).foldl (fun a s => a + s.white_win_probability) 0
      let count : ℚ := (c :: cs).foldl (fun a _ => a + 1) 0
      .mk m w (sum_probs / count) (c :: cs)

/-- `GameTree.add_subtree`: append the subtree, then recompute this node's
probability. -/
def GameTree.add_subtree (t : GameTree) (subtree : GameTree) : GameTree :=
  (GameTree.mk t.move t.is_white_move t.white_win_probability
    (t.subtrees ++ [subtree])).update_white_win_probability

/-- Replace the first element of the subtree list whose move equals `mv`.
This is how Python's in-place mutation of the object returned by
`find_subtree_by_move` looks after state passing: that object is the first
match in `_subtrees`, and `rec_helper` mutates exactly it. -/
def replaceFirst (l : List GameTree) (mv : String) (t2 : GameTree) : List GameTree :=
  match l with
  | [] => []
  | s :: ss => if s.move == mv then t2 :: ss else s :: replaceFirst ss mv t2

/-- `GameTree.rec_helper`: the recursive insertion worker.  It receives the
reversed move list and consumes it from the back (`moves_copy[-1]`,
`moves_copy.pop()`).  If the move is absent a fresh subtree (side to move
flipped, probability `win_probability`) is appended and recursion continues
inside it; if present, recursion continues inside the existing subtree.  On
the way back out, `_update_white_win_probability` runs on this node. -/
def GameTree.rec_helper (t : GameTree) (moves_copy : List String) (win_probability : ℚ) :
    GameTree :=
  if h : moves_copy = [] then t
  else
    match t.find_subtree_by_move (moves_copy.getLast h) with
    | none =>
      let new_subtree := GameTree.mk (moves_copy.getLast h) (!t.is_white_move)
        win_probability []
      let inserted := new_subtree.rec_helper moves_copy.dropLast win_probability
      (GameTree.mk t.move t.is_white_move t.white_win_probability
        (t.subtrees ++ [inserted])).update_white_win_probability
    | some move_tree =>
      let inserted := move_tree.rec_helper moves_copy.dropLast win_probability
      (GameTree.mk t.move t.is_white_move t.white_win_probability
        (replaceFirst t.subtrees (moves_copy.getLast h) inserted)).update_white_win_probability
termination_by moves_copy.length
decreasing_by
  all_goals
    simp only [List.length_dropLast]
    exact Nat.sub_lt (List.length_pos.mpr h) Nat.one_pos

/-- `GameTree.insert_move_sequence`: copy the move list, reverse it, and hand
it to `rec_helper`. -/
def GameTree.insert_move_sequence (t : GameTree) (moves : List String)
    (win_probability : ℚ) : GameTree :=
  t.rec_helper moves.reverse win_probability

/-- Structural companion of `rec_helper`: since the Python code reverses
`moves` and then pops from the back, it processes the original list front to
back; `insertPath` consumes the un-reversed list directly.
`rec_helper_reverse` below proves the two agree. -/
def insertPath (t : GameTree) : List String → ℚ → GameTree
  | [], _ => t
  | mv :: rest, p =>
    match t.find_subtree_by_move mv with
    | none =>
      (GameTree.mk t.move t.is_white_move t.white_win_probability
        (t.subtrees ++ [insertPath (GameTree.mk mv (!t.is_white_move) p []) rest p])
        ).update_white_win_probability
    | some mt =>
      (GameTree.mk t.move t.is_white_move t.white_win_probability
        (replaceFirst t.subtrees mv (insertPath mt rest p))).update_white_win_probability

/-- Stepwise lookup along a list of move labels using `find_subtree_by_move`
(the spec's "calling `child_by_move` stepwise along `P`"). -/
def pathNode : GameTree → List String → Option GameTree
  | t, [] => some t
  | t, mv :: rest =>
    match t.find_subtree_by_move mv with
    | none => none
    | some s => pathNode s rest

/-- A finite sequence of `insert_move_sequence` calls on one tree. -/
def insertAll (t : GameTree) (l : List (List String × ℚ)) : GameTree :=
  l.foldl (fun acc pr => acc.insert_move_sequence pr.1 pr.2) t

/-- Number of children of a node. -/
def GameTree.num_children (t : GameTree) : Nat := t.subtrees.length

mutual
/-- Every node's children are pairwise distinct by move label (spec §3). -/
def NodupLabels : GameTree → Prop
  | .mk _ _ _ s => (s.map GameTree.move).Nodup ∧ NodupLabelsList s
/-- `NodupLabels` for each member of a subtree list. -/
def NodupLabelsList : List GameTree → Prop
  | [] => True
  | c :: cs => NodupLabels c ∧ NodupLabelsList cs
end

mutual
/-- Every node's cached probability lies in `[0, 1]` (spec §3). -/
def InRange : GameTree → Prop
  | .mk _ _ p s => 0 ≤ p ∧ p ≤ 1 ∧ InRangeList s
/-- `InRange` for each member of a subtree list. -/
def InRangeList : List GameTree → Prop
  | [] => True
  | c :: cs => InRange c ∧ InRangeList cs
end

mutual
/-- Length in edges of the longest path from the root down to a leaf. -/
def GameTree.height : GameTree → Nat
  | .mk _ _ _ [] => 0
  | .mk _ _ _ (c :: cs) => 1 + heightList (c :: cs)
/-- Maximum height over a subtree list. -/
def heightList : List GameTree → Nat
  | [] => 0
  | c :: cs => max c.height (heightList cs)
end

mutual
/-- The label paths from the root to each leaf of the tree. -/
def leafPaths : GameTree → List (List String)
  | .mk _ _ _ [] => [[]]
  | .mk _ _ _ (c :: cs) => leafPathsList (c :: cs)
/-- Leaf paths gathered over a subtree list, each prefixed with the child's
own move label. -/
def leafPathsList : List GameTree → List (List String)
  | [] => []
  | c :: cs => (leafPaths c).map (fun q => c.move :: q) ++ leafPathsList cs
end

/-- Result of `MinichessGame.get_winner`. -/
inductive Winner : Type where
  | white
  | black
  | draw
deriving DecidableEq

/-- Modelled from the spec: the Minichess rules engine (`minichess.py`) is an
external collaborator that is not part of the repository; spec §6 lists the
capabilities the core consumes.  A game state carries the `get_winner`
report, the `is_white_move` flag, and the ordered valid-move list, where each
valid move is paired with the state that `copy_and_make_move` returns for
it. -/
inductive MinichessGame : Type where
  | mk (winner : Option Winner) (white_to_move : Bool)
      (moves : List (String × MinichessGame)) : MinichessGame

/-- `get_winner()`: `None`, White, Black or Draw. -/
def MinichessGame.get_winner : MinichessGame → Option Winner
  | .mk w _ _ => w

/-- `is_white_move()`. -/
def MinichessGame.is_white_move : MinichessGame → Bool
  | .mk _ b _ => b

/-- The move/successor pairs backing `get_valid_moves` and
`copy_and_make_move`. -/
def MinichessGame.moves : MinichessGame → List (String × MinichessGame)
  | .mk _ _ ms => ms

/-- `get_valid_moves()`: the ordered list of valid move labels. -/
def MinichessGame.get_valid_moves (g : MinichessGame) : List String :=
  g.moves.map Prod.fst

/-- `copy_and_make_move(move)`: the successor state paired with the given
valid move (absent if the move is not valid). -/
def MinichessGame.copy_and_make_move (g : MinichessGame) (mv : String) :
    Option MinichessGame :=
  (g.moves.find? (fun pr => pr.1 == mv)).map Prod.snd

/-- Follow a list of moves through the engine with `copy_and_make_move`. -/
def stateAfter : MinichessGame → List String → Option MinichessGame
  | g, [] => some g
  | g, mv :: rest =>
    match g.copy_and_make_move mv with
    | none => none
    | some g2 => stateAfter g2 rest

mutual
/-- Well-formed engine: every reachable state lists pairwise distinct move
labels (a rules engine never offers the same move twice). -/
def EngineWF : MinichessGame → Prop
  | .mk _ _ ms => (ms.map Prod.fst).Nodup ∧ EngineWFList ms
/-- `EngineWF` for every successor in a move list. -/
def EngineWFList : List (String × MinichessGame) → Prop
  | [] => True
  | (_, g) :: rest => EngineWF g ∧ EngineWFList rest
end

/-- `generate_complete_game_tree` from `part2.py`.  The Python function
duplicates its body across the `get_winner() == 'White'` test; the only
difference is the initial probability (1.0 versus the default 0.0).  At
depth 0 a single leaf is returned; otherwise one subtree per valid move is
attached with `add_subtree`, in `get_valid_moves()` order, each built from
the state `copy_and_make_move` yields for that move. -/
def generate_complete_game_tree (root_move : String) (g : MinichessGame) :
    Nat → GameTree
  | 0 =>
    if g.get_winner = some Winner.white then
      GameTree.mk root_move g.is_white_move 1 []
    else
      GameTree.mk root_move g.is_white_move 0 []
  | d + 1 =>
    let init :=
      if g.get_winner = some Winner.white then
        GameTree.mk root_move g.is_white_move 1 []
      else
        GameTree.mk root_move g.is_white_move 0 []
    (g.moves.map (fun pr => generate_complete_game_tree pr.1 pr.2 d)).foldl
      GameTree.add_subtree init

/-- The randomness a single `make_move` call can consume: the index
`random.choice` picks on `game.get_valid_moves()`, the index it picks on a
subtree list, and the number `random.uniform(0.0, 1.0)` draws. -/
structure Oracle where
  idxMoves : Nat
  idxSubs : Nat
  u : ℚ

/-- Model of `random.choice(lst)`: the oracle's index reduced modulo the
length; on a nonempty list every element is reachable this way. -/
def listChoice {α : Type} [Inhabited α] (l : List α) (i : Nat) : α :=
  l.getD (i % l.length) default

/-- The shared first step of every `make_move`: if an opponent move was
observed and the held tree is present, descend by that move. -/
def descend (gt : Option GameTree) (previous_move : Option String) : Option GameTree :=
  match previous_move, gt with
  | some pm, some t => t.find_subtree_by_move pm
  | _, _ => gt

/-- `RandomTreePlayer.make_move` (`part1.py`): descend by the opponent move,
fall back to a random valid move (and a `None` tree) when off the tree or
childless, otherwise pick a random subtree and move into it. -/
def RandomTreePlayer.make_move (gt : Option GameTree) (game : MinichessGame)
    (previous_move : Option String) (o : Oracle) : String × Option GameTree :=
  match descend gt previous_move with
  | none => (listChoice game.get_valid_moves o.idxMoves, none)
  | some t =>
    if t.get_subtrees.isEmpty then
      (listChoice game.get_valid_moves o.idxMoves, none)
    else
      let next_subtree := listChoice t.get_subtrees o.idxSubs
      (next_subtree.move, some next_subtree)

/-- The `highest_prob` loop of `GreedyTreePlayer.make_move` (and of
`ExploringPlayer.helper_function2`, which repeats it verbatim): running bound
`prob = 0.0`, `highest_prob = None`, keeping the first subtree whose
probability strictly exceeds the bound. -/
def scanMax (l : List GameTree) : ℚ × Option GameTree :=
  l.foldl
    (fun acc s =>
      if acc.1 < s.white_win_probability then (s.white_win_probability, some s) else acc)
    (0, none)

/-- The `lowest_prob` loop: running bound `prob1 = 1.0`, `lowest_prob = None`,
keeping the first subtree whose probability is strictly below the bound. -/
def scanMin (l : List GameTree) : ℚ × Option GameTree :=
  l.foldl
    (fun acc s =>
      if s.white_win_probability < acc.1 then (s.white_win_probability, some s) else acc)
    (1, none)

/-- `GreedyTreePlayer.make_move` (`part2.py`). -/
def GreedyTreePlayer.make_move (gt : Option GameTree) (game : MinichessGame)
    (previous_move : Option String) (o : Oracle) : String × Option GameTree :=
  match descend gt previous_move with
  | none => (listChoice game.get_valid_moves o.idxMoves, none)
  | some t =>
    if t.get_subtrees.isEmpty then
      (listChoice game.get_valid_moves o.idxMoves, none)
    else
      if game.is_white_move then
        match (scanMax t.get_subtrees).2 with
        | some highest_prob => (highest_prob.move, some highest_prob)
        | none =>
          let next_subtree := listChoice t.get_subtrees o.idxSubs
          (next_subtree.move, some next_subtree)
      else
        match (scanMin t.get_subtrees).2 with
        | some lowest_prob => (lowest_prob.move, some lowest_prob)
        | none =>
          let next_subtree := listChoice t.get_subtrees o.idxSubs
          (next_subtree.move, some next_subtree)

/-- `ExploringPlayer.helper_function` (`part3.py`): a random valid move; if it
is not one of the current children's labels, leave the tree, otherwise move
into the child carrying it.  (In the source, `find_subtree_by_move` cannot
return `None` in the else branch because membership was just checked; the
`none` case here returns the raw move for totality.) -/
def ExploringPlayer.helper_function (t : GameTree) (game : MinichessGame)
    (o : Oracle) : String × Option GameTree :=
  let next_move := listChoice game.get_valid_moves o.idxMoves
  if next_move ∉ t.get_subtrees.map GameTree.move then
    (next_move, none)
  else
    match t.find_subtree_by_move next_move with
    | some next_subtree => (next_subtree.move, some next_subtree)
    | none => (next_move, none)

/-- `ExploringPlayer.helper_function2` (`part3.py`): verbatim the greedy
selection branch of `GreedyTreePlayer.make_move`. -/
def ExploringPlayer.helper_function2 (t : GameTree) (game : MinichessGame)
    (o : Oracle) : String × Option GameTree :=
  if game.is_white_move then
    match (scanMax t.get_subtrees).2 with
    | some highest_prob => (highest_prob.move, some highest_prob)
    | none =>
      let next_subtree := listChoice t.get_subtrees o.idxSubs
      (next_subtree.move, some next_subtree)
  else
    match (scanMin t.get_subtrees).2 with
    | some lowest_prob => (lowest_prob.move, some lowest_prob)
    | none =>
      let next_subtree := listChoice t.get_subtrees o.idxSubs
      (next_subtree.move, some next_subtree)

/-- `ExploringPlayer.make_move` (`part3.py`): after the shared descent and
fallback, draw `number = random.uniform(0.0, 1.0)`; explore when
`number < exploration_probability`, otherwise play the greedy helper. -/
def ExploringPlayer.make_move (gt : Option GameTree) (exploration_probability : ℚ)
    (game : MinichessGame) (previous_move : Option String) (o : Oracle) :
    String × Option GameTree :=
  match descend gt previous_move with
  | none => (listChoice game.get_valid_moves o.idxMoves, none)
  | some t =>
    if t.get_subtrees.isEmpty then
      (listChoice game.get_valid_moves o.idxMoves, none)
    else
      if o.u < exploration_probability then
        ExploringPlayer.helper_function t game o
      else
        ExploringPlayer.helper_function2 t game o

/-- The held position after a sequence of later `RandomTreePlayer.make_move`
calls in the same game. -/
def RandomTreePlayer.play_from (s : Option GameTree)
    (calls : List (MinichessGame × Option String × Oracle)) : Option GameTree :=
  calls.foldl (fun st c => (RandomTreePlayer.make_move st c.1 c.2.1 c.2.2).2) s

/-- The held position after a sequence of later `GreedyTreePlayer.make_move`
calls in the same game. -/
def GreedyTreePlayer.play_from (s : Option GameTree)
    (calls : List (MinichessGame × Option String × Oracle)) : Option GameTree :=
  calls.foldl (fun st c => (GreedyTreePlayer.make_move st c.1 c.2.1 c.2.2).2) s

/-- The held position after a sequence of later `ExploringPlayer.make_move`
calls in the same game (each call with its own exploration probability). -/
def ExploringPlayer.play_from (s : Option GameTree)
    (calls : List (ℚ × MinichessGame × Option String × Oracle)) : Option GameTree :=
  calls.foldl (fun st c => (ExploringPlayer.make_move st c.1 c.2.1 c.2.2.1 c.2.2.2).2) s

/-! ### Basic structural lemmas -/

@[simp] theorem GameTree.move_mk (m : String) (w : Bool) (p : ℚ) (s : List GameTree) :
    (GameTree.mk m w p s).move = m := rfl

@[simp] theorem GameTree.is_white_move_mk (m : String) (w : Bool) (p : ℚ) (s : List GameTree) :
    (GameTree.mk m w p s).is_white_move = w := rfl

@[simp] theorem GameTree.white_win_probability_mk (m : String) (w : Bool) (p : ℚ)
    (s : List GameTree) : (GameTree.mk m w p s).white_win_probability = p := rfl

@[simp] theorem GameTree.subtrees_mk (m : String) (w : Bool) (p : ℚ) (s : List GameTree) :
    (GameTree.mk m w p s).subtrees = s := rfl

theorem GameTree.eta (t : GameTree) :
    GameTree.mk t.move t.is_white_move t.white_win_probability t.subtrees = t := by
  cases t
  rfl

@[simp] theorem GameTree.update_subtrees (t : GameTree) :
    t.update_white_win_probability.subtrees = t.subtrees := by
  cases t with
  | mk m w p s =>
    cases s with
    | nil => rfl
    | cons c cs => cases w <;> simp [GameTree.update_white_win_probability]

@[simp] theorem GameTree.update_move (t : GameTree) :
    t.update_white_win_probability.move = t.move := by
  cases t with
  | mk m w p s =>
    cases s with
    | nil => rfl
    | cons c cs => cases w <;> simp [GameTree.update_white_win_probability]

@[simp] theorem GameTree.update_is_white_move (t : GameTree) :
    t.update_white_win_probability.is_white_move = t.is_white_move := by
  cases t with
  | mk m w p s =>
    cases s with
    | nil => rfl
    | cons c cs => cases w <;> simp [GameTree.update_white_win_probability]

theorem replaceFirst_length (l : List GameTree) (mv : String) (t2 : GameTree) :
    (replaceFirst l mv t2).length = l.length := by
  induction l with
  | nil => rfl
  | cons s ss ih => cases h : (s.move == mv) <;> simp [replaceFirst, h, ih]

theorem replaceFirst_map_move (l : List GameTree) (mv : String) (t2 : GameTree)
    (hmv : t2.move = mv) :
    (replaceFirst l mv t2).map GameTree.move = l.map GameTree.move := by
  induction l with
  | nil => rfl
  | cons s ss ih =>
    cases h : (s.move == mv)
    · simp [replaceFirst, h, ih]
    · have hs : s.move = mv := by simpa using h
      simp [replaceFirst, h, hmv, hs]

theorem replaceFirst_mem {l : List GameTree} {mv : String} {t2 c : GameTree}
    (hc : c ∈ replaceFirst l mv t2) : c ∈ l ∨ c = t2 := by
  induction l with
  | nil => simp [replaceFirst] at hc
  | cons s ss ih =>
    cases h : (s.move == mv) <;> simp [replaceFirst, h] at hc
    · rcases hc with hc | hc
      · exact Or.inl (by simp [hc])
      · rcases ih hc with h2 | h2
        · exact Or.inl (List.mem_cons_of_mem _ h2)
        · exact Or.inr h2
    · rcases hc with hc | hc
      · exact Or.inr hc
      · exact Or.inl (List.mem_cons_of_mem _ hc)

theorem find?_append_of_none {α : Type} {p : α → Bool} {l1 : List α}
    (h : List.find? p l1 = none) (l2 : List α) :
    List.find? p (l1 ++ l2) = List.find? p l2 := by
  induction l1 with
  | nil => simp
  | cons a l ih =>
    rw [List.find?_cons] at h
    cases hpa : p a <;> rw [hpa] at h
    · rw [List.cons_append, List.find?_cons, hpa]
      exact ih h
    · exact absurd h (by simp)

theorem find?_append_of_some {α : Type} {p : α → Bool} {l1 : List α} {a : α}
    (h : List.find? p l1 = some a) (l2 : List α) :
    List.find? p (l1 ++ l2) = some a := by
  induction l1 with
  | nil => simp at h
  | cons b l ih =>
    rw [List.find?_cons] at h
    cases hpb : p b <;> rw [hpb] at h
    · rw [List.cons_append, List.find?_cons, hpb]
      exact ih h
    · rw [List.cons_append, List.find?_cons, hpb]
      exact h

theorem rec_helper_reverse (l : List String) : ∀ (t : GameTree) (p : ℚ),
    t.rec_helper l.reverse p = insertPath t l p := by
  induction l with
  | nil =>
    intro t p
    rw [List.reverse_nil, GameTree.rec_helper]
    rfl
  | cons mv rest ih =>
    intro t p
    have hrev : (mv :: rest).reverse = rest.reverse ++ [mv] := by
      simp
    rw [hrev, GameTree.rec_helper]
    have hne : rest.reverse ++ [mv] ≠ [] := by simp
    rw [dif_neg hne]
    have hlast : (rest.reverse ++ [mv]).getLast hne = mv := by
      simp
    have hdrop : (rest.reverse ++ [mv]).dropLast = rest.reverse := by
      simp
    rw [hlast, hdrop, insertPath]
    cases hf : t.find_subtree_by_move mv
    · simp only [ih]
    · simp only [ih]

theorem insertPath_move (P : List String) (t : GameTree) (p : ℚ) :
    (insertPath t P p).move = t.move := by
  cases P with
  | nil => rfl
  | cons mv rest =>
    cases hf : t.find_subtree_by_move mv <;> simp [insertPath, hf]

theorem insertPath_is_white_move (P : List String) (t : GameTree) (p : ℚ) :
    (insertPath t P p).is_white_move = t.is_white_move := by
  cases P with
  | nil => rfl
  | cons mv rest =>
    cases hf : t.find_subtree_by_move mv <;> simp [insertPath, hf]

theorem find_replaceFirst_self {l : List GameTree} {mv : String} {mt : GameTree}
    (hf : List.find? (fun s => s.move == mv) l = some mt) {t2 : GameTree}
    (hmv : t2.move = mv) :
    List.find? (fun s => s.move == mv) (replaceFirst l mv t2) = some t2 := by
  induction l with
  | nil => simp at hf
  | cons s ss ih =>
    rw [List.find?_cons] at hf
    cases hs : (s.move == mv) <;> rw [hs] at hf
    · rw [replaceFirst, if_neg (by simp [hs]), List.find?_cons, hs]
      exact ih hf
    · rw [replaceFirst, if_pos hs, List.find?_cons]
      simp [hmv]

theorem find_replaceFirst_of_ne {l : List GameTree} {mv mv2 : String} {t2 : GameTree}
    (hne : mv2 ≠ mv) (hmv : t2.move = mv) :
    List.find? (fun s => s.move == mv2) (replaceFirst l mv t2) =
      List.find? (fun s => s.move == mv2) l := by
  induction l with
  | nil => rfl
  | cons s ss ih =>
    cases hs : (s.move == mv)
    · rw [replaceFirst, if_neg (by simp [hs]), List.find?_cons, List.find?_cons]
      cases hs2 : (s.move == mv2) <;> simp [ih]
    · rw [replaceFirst, if_pos hs, List.find?_cons, List.find?_cons]
      have h1 : (t2.move == mv2) = false := by
        simp [hmv]
        exact fun hh => absurd hh.symm hne
      have h2 : (s.move == mv2) = false := by
        have : s.move = mv := by simpa using hs
        simp [this]
        exact fun hh => absurd hh.symm hne
      rw [h1, h2]

theorem find_subtree_move {t : GameTree} {mv : String} {mt : GameTree}
    (hf : t.find_subtree_by_move mv = some mt) : mt.move = mv := by
  rw [GameTree.find_subtree_by_move] at hf
  simpa using List.find?_some hf

theorem find_subtree_mem {t : GameTree} {mv : String} {mt : GameTree}
    (hf : t.find_subtree_by_move mv = some mt) : mt ∈ t.subtrees := by
  rw [GameTree.find_subtree_by_move] at hf
  exact List.mem_of_find?_eq_some hf

theorem find_insertPath_of_none {t : GameTree} {mv : String} {rest : List String} {p : ℚ}
    (hf : t.find_subtree_by_move mv = none) :
    (insertPath t (mv :: rest) p).find_subtree_by_move mv =
      some (insertPath (GameTree.mk mv (!t.is_white_move) p []) rest p) := by
  rw [insertPath, hf]
  rw [GameTree.find_subtree_by_move, GameTree.update_subtrees, GameTree.subtrees_mk]
  rw [find?_append_of_none hf]
  rw [List.find?_cons]
  have : ((insertPath (GameTree.mk mv (!t.is_white_move) p []) rest p).move == mv) = true := by
    simp [insertPath_move]
  rw [this]

theorem find_insertPath_of_some {t : GameTree} {mv : String} {rest : List String} {p : ℚ}
    {mt : GameTree} (hf : t.find_subtree_by_move mv = some mt) :
    (insertPath t (mv :: rest) p).find_subtree_by_move mv = some (insertPath mt rest p) := by
  rw [insertPath, hf]
  rw [GameTree.find_subtree_by_move, GameTree.update_subtrees, GameTree.subtrees_mk]
  exact find_replaceFirst_self hf (by simp [insertPath_move, find_subtree_move hf])

theorem find_insertPath_of_ne {t : GameTree} {mv mv2 : String} {rest : List String} {p : ℚ}
    (hne : mv2 ≠ mv) :
    (insertPath t (mv :: rest) p).find_subtree_by_move mv2 = t.find_subtree_by_move mv2 := by
  cases hf : t.find_subtree_by_move mv
  · rw [insertPath, hf]
    rw [GameTree.find_subtree_by_move, GameTree.update_subtrees, GameTree.subtrees_mk]
    cases hf2 : t.find_subtree_by_move mv2
    · rw [GameTree.find_subtree_by_move] at hf2
      rw [find?_append_of_none hf2, List.find?_cons]
      have : ((insertPath (GameTree.mk mv (!t.is_white_move) p []) rest p).move == mv2)
          = false := by
        simp [insertPath_move]
        exact fun hh => absurd hh.symm hne
      rw [this]
      rfl
    · rw [GameTree.find_subtree_by_move] at hf2
      exact find?_append_of_some hf2 _
  · rw [insertPath, hf]
    rw [GameTree.find_subtree_by_move, GameTree.update_subtrees, GameTree.subtrees_mk]
    exact find_replaceFirst_of_ne hne (by simp [insertPath_move, find_subtree_move hf])

theorem pathNode_insertPath_isSome {Q : List String} : ∀ {t : GameTree} (P : List String)
    (p : ℚ), (pathNode t Q).isSome → (pathNode (insertPath t P p) Q).isSome := by
  induction Q with
  | nil =>
    intro t P p _
    cases P with
    | nil => simp [pathNode]
    | cons mv rest => simp [pathNode]
  | cons q0 qrest ih =>
    intro t P p hq
    rw [pathNode] at hq
    cases hfq : t.find_subtree_by_move q0 <;> rw [hfq] at hq
    · simp at hq
    · rename_i s
      cases P with
      | nil => rw [insertPath, pathNode, hfq]; exact hq
      | cons mv rest =>
        by_cases hqe : q0 = mv
        · subst hqe
          rw [pathNode, find_insertPath_of_some hfq]
          exact ih rest p hq
        · rw [pathNode, find_insertPath_of_ne hqe, hfq]
          exact ih [] p hq

theorem pathNode_insertPath_take : ∀ (P : List String) {t : GameTree} (p : ℚ) (i : Nat),
    (pathNode (insertPath t P p) (P.take i)).isSome := by
  intro P
  induction P with
  | nil =>
    intro t p i
    simp [pathNode]
  | cons mv rest ih =>
    intro t p i
    cases i with
    | zero => simp [pathNode]
    | succ j =>
      rw [List.take_succ_cons, pathNode]
      cases hf : t.find_subtree_by_move mv
      · rw [find_insertPath_of_none hf]
        exact ih p j
      · rw [find_insertPath_of_some hf]
        exact ih p j

theorem insert_move_sequence_eq_insertPath (t : GameTree) (moves : List String) (p : ℚ) :
    t.insert_move_sequence moves p = insertPath t moves p := by
  rw [GameTree.insert_move_sequence, rec_helper_reverse]

theorem pathNode_insertAll_isSome {Q : List String} :
    ∀ {t : GameTree} (l : List (List String × ℚ)),
    (pathNode t Q).isSome → (pathNode (insertAll t l) Q).isSome := by
  intro t l
  induction l generalizing t with
  | nil => intro h; exact h
  | cons pr rest ih =>
    intro h
    rw [insertAll, List.foldl_cons]
    refine ih ?_
    rw [insert_move_sequence_eq_insertPath]
    exact pathNode_insertPath_isSome pr.1 pr.2 h

theorem pathNode_insertPath_of_present : ∀ (P : List String) {t u : GameTree} (q : ℚ),
    pathNode t P = some u → pathNode (insertPath t P q) P = some u := by
  intro P
  induction P with
  | nil =>
    intro t u q h
    simpa [pathNode, insertPath] using h
  | cons mv rest ih =>
    intro t u q h
    rw [pathNode] at h
    cases hf : t.find_subtree_by_move mv <;> rw [hf] at h
    · simp at h
    · rw [pathNode, find_insertPath_of_some hf]
      exact ih q h

theorem pathNode_insertPath_num_children :
    ∀ (P : List String) {t u : GameTree} (q : ℚ) (i : Nat), pathNode t P = some u →
    (pathNode (insertPath t P q) (P.take i)).map GameTree.num_children
      = (pathNode t (P.take i)).map GameTree.num_children := by
  intro P
  induction P with
  | nil =>
    intro t u q i h
    simp [pathNode, insertPath]
  | cons mv rest ih =>
    intro t u q i h
    rw [pathNode] at h
    cases hf : t.find_subtree_by_move mv <;> rw [hf] at h
    · simp at h
    · cases i with
      | zero =>
        simp only [List.take_zero, pathNode, Option.map_some]
        rw [insertPath, hf]
        simp [GameTree.num_children, replaceFirst_length]
      | succ j =>
        rw [List.take_succ_cons, pathNode, pathNode, find_insertPath_of_some hf, hf]
        exact ih q j h

theorem nodupLabelsList_iff (l : List GameTree) :
    NodupLabelsList l ↔ ∀ c ∈ l, NodupLabels c := by
  induction l with
  | nil => simp [NodupLabelsList]
  | cons c cs ih => simp [NodupLabelsList, ih]

theorem nodupLabels_def (t : GameTree) :
    NodupLabels t ↔
      (t.subtrees.map GameTree.move).Nodup ∧ ∀ c ∈ t.subtrees, NodupLabels c := by
  cases t with
  | mk m w p s =>
    rw [NodupLabels]
    simp [nodupLabelsList_iff]

theorem nodupLabels_update {t : GameTree} (h : NodupLabels t) :
    NodupLabels t.update_white_win_probability := by
  rw [nodupLabels_def] at h ⊢
  simpa [GameTree.update_subtrees] using h

theorem label_notMem_of_find_none {t : GameTree} {mv : String}
    (hf : t.find_subtree_by_move mv = none) : mv ∉ t.subtrees.map GameTree.move := by
  rw [GameTree.find_subtree_by_move, List.find?_eq_none] at hf
  intro hmem
  rcases List.mem_map.mp hmem with ⟨c, hc, hcm⟩
  exact hf c hc (by simp [hcm])

theorem nodupLabels_insertPath : ∀ (P : List String) {t : GameTree} (p : ℚ),
    NodupLabels t → NodupLabels (insertPath t P p) := by
  intro P
  induction P with
  | nil => intro t p h; exact h
  | cons mv rest ih =>
    intro t p h
    rw [nodupLabels_def] at h
    cases hf : t.find_subtree_by_move mv
    · rw [insertPath, hf]
      apply nodupLabels_update
      rw [nodupLabels_def]
      constructor
      · rw [GameTree.subtrees_mk, List.map_append, List.map_singleton, insertPath_move,
          GameTree.move_mk]
        simp only [List.nodup_append, List.nodup_singleton, List.disjoint_singleton]
        exact ⟨h.1, trivial, label_notMem_of_find_none hf⟩
      · intro c hc
        rw [GameTree.subtrees_mk] at hc
        rcases List.mem_append.mp hc with hold | hnew
        · exact h.2 c hold
        · rw [List.mem_singleton] at hnew
          subst hnew
          refine ih p ?_
          rw [nodupLabels_def]
          simp
    · rw [insertPath, hf]
      apply nodupLabels_update
      rw [nodupLabels_def]
      constructor
      · rw [GameTree.subtrees_mk,
          replaceFirst_map_move _ _ _ (by rw [insertPath_move, find_subtree_move hf])]
        exact h.1
      · intro c hc
        rw [GameTree.subtrees_mk] at hc
        rcases replaceFirst_mem hc with hold | hnew
        · exact h.2 c hold
        · subst hnew
          exact ih p (h.2 _ (find_subtree_mem hf))

theorem foldMax_le (l : List GameTree) : ∀ (b : ℚ),
    b ≤ l.foldl (fun a s => max a s.white_win_probability) b := by
  induction l with
  | nil => intro b; simp
  | cons c cs ih =>
    intro b
    rw [List.foldl_cons]
    exact le_trans (le_max_left _ _) (ih _)

theorem foldMax_mem_or (l : List GameTree) : ∀ (b : ℚ),
    l.foldl (fun a s => max a s.white_win_probability) b = b ∨
    l.foldl (fun a s => max a s.white_win_probability) b
      ∈ l.map GameTree.white_win_probability := by
  induction l with
  | nil => intro b; left; rfl
  | cons c cs ih =>
    intro b
    rw [List.foldl_cons, List.map_cons]
    rcases le_or_lt c.white_win_probability b with hcb | hbc
    · rw [max_eq_left hcb]
      rcases ih b with h | h
      · exact Or.inl h
      · exact Or.inr (List.mem_cons_of_mem _ h)
    · rw [max_eq_right (le_of_lt hbc)]
      rcases ih c.white_win_probability with h | h
      · exact Or.inr (by rw [h]; exact List.mem_cons_self _ _)
      · exact Or.inr (List.mem_cons_of_mem _ h)

theorem foldMax_ub (l : List GameTree) : ∀ (b : ℚ) (x : GameTree), x ∈ l →
    x.white_win_probability ≤ l.foldl (fun a s => max a s.white_win_probability) b := by
  induction l with
  | nil => intro b x hx; simp at hx
  | cons c cs ih =>
    intro b x hx
    rw [List.foldl_cons]
    rcases List.mem_cons.mp hx with he | hm
    · subst he
      exact le_trans (le_max_right _ _) (foldMax_le _ _)
    · exact ih _ _ hm

theorem maxProbs_mem {l : List GameTree} (hne : l ≠ []) :
    maxProbs l ∈ l.map GameTree.white_win_probability := by
  cases l with
  | nil => exact absurd rfl hne
  | cons c cs =>
    rw [maxProbs, List.map_cons]
    rcases foldMax_mem_or cs c.white_win_probability with h | h
    · rw [h]; exact List.mem_cons_self _ _
    · exact List.mem_cons_of_mem _ h

theorem maxProbs_ub {l : List GameTree} {x : GameTree} (hx : x ∈ l) :
    x.white_win_probability ≤ maxProbs l := by
  cases l with
  | nil => simp at hx
  | cons c cs =>
    rw [maxProbs]
    rcases List.mem_cons.mp hx with he | hm
    · subst he; exact foldMax_le _ _
    · exact foldMax_ub _ _ _ hm

theorem foldSum_eq (l : List GameTree) : ∀ (a : ℚ),
    l.foldl (fun acc s => acc + s.white_win_probability) a
      = a + (l.map GameTree.white_win_probability).sum := by
  induction l with
  | nil => intro a; simp
  | cons c cs ih =>
    intro a
    rw [List.foldl_cons, ih, List.map_cons, List.sum_cons]
    ring

theorem foldCount_eq (l : List GameTree) : ∀ (a : ℚ),
    l.foldl (fun acc _ => acc + 1) a = a + (l.length : ℚ) := by
  induction l with
  | nil => intro a; simp
  | cons c cs ih =>
    intro a
    rw [List.foldl_cons, ih, List.length_cons]
    push_cast
    ring

theorem update_prob_nil {t : GameTree} (h : t.subtrees = []) :
    t.update_white_win_probability = t := by
  cases t with
  | mk m w p s =>
    rw [GameTree.subtrees_mk] at h
    subst h
    rfl

theorem update_prob_white {t : GameTree} (hw : t.is_white_move = true)
    (hne : t.subtrees ≠ []) :
    t.update_white_win_probability.white_win_probability = maxProbs t.subtrees := by
  cases t with
  | mk m w p s =>
    rw [GameTree.subtrees_mk] at hne ⊢
    rw [GameTree.is_white_move_mk] at hw
    subst hw
    cases s with
    | nil => exact absurd rfl hne
    | cons c cs => simp [GameTree.update_white_win_probability]

theorem update_prob_black {t : GameTree} (hw : t.is_white_move = false)
    (hne : t.subtrees ≠ []) :
    t.update_white_win_probability.white_win_probability
      = (t.subtrees.map GameTree.white_win_probability).sum / (t.subtrees.length : ℚ) := by
  cases t with
  | mk m w p s =>
    rw [GameTree.subtrees_mk] at hne ⊢
    rw [GameTree.is_white_move_mk] at hw
    subst hw
    cases s with
    | nil => exact absurd rfl hne
    | cons c cs =>
      simp only [GameTree.update_white_win_probability, if_neg (by simp : ¬(false = true)),
        GameTree.white_win_probability_mk, foldSum_eq, foldCount_eq, zero_add]

theorem inRangeList_iff (l : List GameTree) : InRangeList l ↔ ∀ c ∈ l, InRange c := by
  induction l with
  | nil => simp [InRangeList]
  | cons c cs ih => simp [InRangeList, ih]

theorem inRange_def (t : GameTree) :
    InRange t ↔ 0 ≤ t.white_win_probability ∧ t.white_win_probability ≤ 1 ∧
      ∀ c ∈ t.subtrees, InRange c := by
  cases t with
  | mk m w p s =>
    rw [InRange]
    simp [inRangeList_iff]

theorem sum_probs_bounds {l : List GameTree}
    (h : ∀ c ∈ l, 0 ≤ c.white_win_probability ∧ c.white_win_probability ≤ 1) :
    0 ≤ (l.map GameTree.white_win_probability).sum ∧
      (l.map GameTree.white_win_probability).sum ≤ (l.length : ℚ) := by
  induction l with
  | nil => simp
  | cons c cs ih =>
    have hc := h c (List.mem_cons_self _ _)
    have hcs := ih (fun x hx => h x (List.mem_cons_of_mem _ hx))
    rw [List.map_cons, List.sum_cons, List.length_cons]
    push_cast
    constructor
    · exact add_nonneg hc.1 hcs.1
    · calc c.white_win_probability + (cs.map GameTree.white_win_probability).sum
          ≤ 1 + (cs.length : ℚ) := add_le_add hc.2 hcs.2
        _ = (cs.length : ℚ) + 1 := by ring

theorem inRange_update {t : GameTree} (h : InRange t) :
    InRange t.update_white_win_probability := by
  rcases List.eq_nil_or_concat t.subtrees with hnil | ⟨_, _, hcat⟩
  · rw [update_prob_nil hnil]
    exact h
  · have hne : t.subtrees ≠ [] := by rw [hcat]; simp
    rw [inRange_def] at h
    have hbounds : ∀ c ∈ t.subtrees, 0 ≤ c.white_win_probability ∧
        c.white_win_probability ≤ 1 := by
      intro c hc
      have := (inRange_def c).mp (h.2.2 c hc)
      exact ⟨this.1, this.2.1⟩
    rw [inRange_def, GameTree.update_subtrees]
    refine ⟨?_, ?_, h.2.2⟩
    · cases hw : t.is_white_move
      · rw [update_prob_black hw hne]
        have hs := sum_probs_bounds hbounds
        have hlen : (0 : ℚ) < (t.subtrees.length : ℚ) := by
          have : 0 < t.subtrees.length := List.length_pos.mpr hne
          exact_mod_cast this
        exact div_nonneg hs.1 (le_of_lt hlen)
      · rw [update_prob_white hw hne]
        rcases List.mem_map.mp (maxProbs_mem hne) with ⟨c, hc, hcp⟩
        rw [← hcp]
        exact (hbounds c hc).1
    · cases hw : t.is_white_move
      · rw [update_prob_black hw hne]
        have hs := sum_probs_bounds hbounds
        have hlen : (0 : ℚ) < (t.subtrees.length : ℚ) := by
          have : 0 < t.subtrees.length := List.length_pos.mpr hne
          exact_mod_cast this
        rw [div_le_one hlen]
        exact hs.2
      · rw [update_prob_white hw hne]
        rcases List.mem_map.mp (maxProbs_mem hne) with ⟨c, hc, hcp⟩
        rw [← hcp]
        exact (hbounds c hc).2

theorem inRange_add_subtree {t s : GameTree} (ht : InRange t) (hs : InRange s) :
    InRange (t.add_subtree s) := by
  rw [GameTree.add_subtree]
  apply inRange_update
  rw [inRange_def] at ht ⊢
  refine ⟨by simpa using ht.1, by simpa using ht.2.1, ?_⟩
  intro c hc
  rw [GameTree.subtrees_mk] at hc
  rcases List.mem_append.mp hc with hold | hnew
  · exact ht.2.2 c hold
  · rw [List.mem_singleton] at hnew
    subst hnew
    exact hs

theorem inRange_insertPath : ∀ (P : List String) {t : GameTree} {p : ℚ},
    InRange t → 0 ≤ p → p ≤ 1 → InRange (insertPath t P p) := by
  intro P
  induction P with
  | nil => intro t p h _ _; exact h
  | cons mv rest ih =>
    intro t p h hp0 hp1
    rw [inRange_def] at h
    cases hf : t.find_subtree_by_move mv
    · rw [insertPath, hf]
      apply inRange_update
      rw [inRange_def]
      refine ⟨by simpa using h.1, by simpa using h.2.1, ?_⟩
      intro c hc
      rw [GameTree.subtrees_mk] at hc
      rcases List.mem_append.mp hc with hold | hnew
      · exact h.2.2 c hold
      · rw [List.mem_singleton] at hnew
        subst hnew
        refine ih ?_ hp0 hp1
        rw [inRange_def]
        exact ⟨by simpa using hp0, by simpa using hp1, by simp⟩
    · rw [insertPath, hf]
      apply inRange_update
      rw [inRange_def]
      refine ⟨by simpa using h.1, by simpa using h.2.1, ?_⟩
      intro c hc
      rw [GameTree.subtrees_mk] at hc
      rcases replaceFirst_mem hc with hold | hnew
      · exact h.2.2 c hold
      · subst hnew
        exact ih (h.2.2 _ (find_subtree_mem hf)) hp0 hp1

theorem insertAll_cons (t : GameTree) (pr : List String × ℚ)
    (rest : List (List String × ℚ)) :
    insertAll t (pr :: rest) = insertAll (t.insert_move_sequence pr.1 pr.2) rest := rfl

/-- Claim C1: recomputing a node's cached estimate with
`_update_white_win_probability` (the recomputation `add_subtree` and every
step of `insert_move_sequence` trigger) sets `white_win_probability` to the
maximum of the children's values when `is_white_move` is true, to the
arithmetic mean of the children's values when `is_white_move` is false, and
leaves the node unchanged when it has no children; `add_subtree` is exactly
append-then-recompute. -/
theorem update_white_win_probability_rule (t s : GameTree) :
    (t.subtrees = [] → t.update_white_win_probability = t) ∧
    (t.subtrees ≠ [] → t.is_white_move = true →
      t.update_white_win_probability.white_win_probability
          ∈ t.subtrees.map GameTree.white_win_probability ∧
      ∀ r ∈ t.subtrees.map GameTree.white_win_probability,
        r ≤ t.update_white_win_probability.white_win_probability) ∧
    (t.subtrees ≠ [] → t.is_white_move = false →
      t.update_white_win_probability.white_win_probability
        = (t.subtrees.map GameTree.white_win_probability).sum / (t.subtrees.length : ℚ)) ∧
    t.add_subtree s
      = (GameTree.mk t.move t.is_white_move t.white_win_probability
          (t.subtrees ++ [s])).update_white_win_probability := by
  refine ⟨update_prob_nil, ?_, fun hne hw => update_prob_black hw hne, rfl⟩
  intro hne hw
  rw [update_prob_white hw hne]
  constructor
  · exact maxProbs_mem hne
  · intro r hr
    rcases List.mem_map.mp hr with ⟨c, hc, hcp⟩
    rw [← hcp]
    exact maxProbs_ub hc

theorem update_white_win_probability_rule_witness :
    ((GameTree.mk "*" true 0 [GameTree.mk "a" false (1/2) []]).subtrees ≠ [] ∧
      (GameTree.mk "*" true 0 [GameTree.mk "a" false (1/2) []]).is_white_move = true) ∧
    (GameTree.mk "*" true 0
        [GameTree.mk "a" false (1/2) []]).update_white_win_probability.white_win_probability
      ∈ (GameTree.mk "*" true 0
          [GameTree.mk "a" false (1/2) []]).subtrees.map GameTree.white_win_probability := by
  refine ⟨⟨by simp, rfl⟩, ?_⟩
  exact ((update_white_win_probability_rule
    (GameTree.mk "*" true 0 [GameTree.mk "a" false (1/2) []])
    (GameTree.mk "*" true 0 [])).2.1 (by simp) rfl).1

/-- Claim C2: re-inserting a move path that was already inserted creates no
duplicate siblings: after the second `insert_move_sequence` every node along
the path has exactly as many children as after the first, and the
children-distinct-by-move-label invariant is preserved everywhere. -/
theorem insert_idempotent_no_duplicates (t : GameTree) (P : List String) (p q : ℚ)
    (hnd : NodupLabels t) :
    (∀ i, (pathNode ((t.insert_move_sequence P p).insert_move_sequence P q)
            (P.take i)).map GameTree.num_children
          = (pathNode (t.insert_move_sequence P p) (P.take i)).map GameTree.num_children) ∧
    NodupLabels ((t.insert_move_sequence P p).insert_move_sequence P q) := by
  rw [insert_move_sequence_eq_insertPath, insert_move_sequence_eq_insertPath]
  have hfull : (pathNode (insertPath t P p) (P.take P.length)).isSome :=
    pathNode_insertPath_take P p P.length
  rw [List.take_length] at hfull
  rcases Option.isSome_iff_exists.mp hfull with ⟨u, hu⟩
  constructor
  · intro i
    exact pathNode_insertPath_num_children P q i hu
  · exact nodupLabels_insertPath P q (nodupLabels_insertPath P p hnd)

theorem insert_idempotent_no_duplicates_witness :
    NodupLabels (GameTree.mk "*" true 0 []) ∧
    (pathNode (((GameTree.mk "*" true 0 []).insert_move_sequence ["a", "b"] 0
          ).insert_move_sequence ["a", "b"] 1) (["a", "b"].take 1)).map GameTree.num_children
        = (pathNode ((GameTree.mk "*" true 0 []).insert_move_sequence ["a", "b"] 0)
            (["a", "b"].take 1)).map GameTree.num_children ∧
    NodupLabels (((GameTree.mk "*" true 0 []).insert_move_sequence ["a", "b"] 0
        ).insert_move_sequence ["a", "b"] 1) := by
  have hnd : NodupLabels (GameTree.mk "*" true 0 []) := by
    rw [nodupLabels_def]
    simp
  have h := insert_idempotent_no_duplicates (GameTree.mk "*" true 0 []) ["a", "b"] 0 1 hnd
  exact ⟨hnd, h.1 1, h.2⟩

/-- Claim C3: after any finite sequence of `insert_move_sequence` calls on a
tree, every path inserted by one of them is still found by stepwise
`find_subtree_by_move` lookup at every step (no inserted path is lost). -/
theorem insertAll_paths_found (t : GameTree) (l : List (List String × ℚ))
    (P : List String) (q : ℚ) (hmem : (P, q) ∈ l) :
    ∀ i, (pathNode (insertAll t l) (P.take i)).isSome = true := by
  induction l generalizing t with
  | nil => simp at hmem
  | cons pr rest ih =>
    intro i
    rw [insertAll_cons]
    rcases List.mem_cons.mp hmem with he | hm
    · have hpr : pr = (P, q) := he.symm
      subst hpr
      apply pathNode_insertAll_isSome rest
      rw [insert_move_sequence_eq_insertPath]
      exact pathNode_insertPath_take P q i
    · exact ih _ hm i

theorem insertAll_paths_found_witness :
    ((["a", "b"], (1 : ℚ)) ∈ [((["a", "b"] : List String), (1 : ℚ)),
        ((["a", "c"] : List String), (0 : ℚ))]) ∧
    (pathNode (insertAll (GameTree.mk "*" true 0 [])
        [((["a", "b"] : List String), (1 : ℚ)), ((["a", "c"] : List String), (0 : ℚ))])
      (["a", "b"].take 2)).isSome = true := by
  refine ⟨by simp, ?_⟩
  exact insertAll_paths_found (GameTree.mk "*" true 0 [])
    [((["a", "b"] : List String), (1 : ℚ)), ((["a", "c"] : List String), (0 : ℚ))]
    ["a", "b"] 1 (by simp) 2

/-- Claim C4 counterexample: the claim says re-inserting an already fully
present path `P` overwrites the probability of the node at the end of `P`
with the new outcome.  On the code it does not: insert `["a"]` with outcome
0, then re-insert `["a"]` with outcome 1 — the node at the end of the path
still carries probability 0, not 1. -/
theorem reinsert_overwrites_leaf_counterexample :
    (pathNode (((GameTree.mk "*" true 0 []).insert_move_sequence ["a"] 0
        ).insert_move_sequence ["a"] 1) ["a"]).map GameTree.white_win_probability
      = some 0 ∧ (0 : ℚ) ≠ 1 := by
  constructor
  · rw [insert_move_sequence_eq_insertPath, insert_move_sequence_eq_insertPath]
    rfl
  · norm_num

/-- Claim C4 (amended): for every move path `P` whose chain of nodes is
already entirely present, `insert_move_sequence(P, q)` leaves the node at
the end of `P` entirely unchanged — in particular its win probability keeps
its previous value and is NOT overwritten with `q`; `q` only initializes
nodes created by the insertion. -/
theorem reinsert_leaves_end_node_unchanged (t : GameTree) (P : List String) (q : ℚ)
    (u : GameTree) (hp : pathNode t P = some u) :
    pathNode (t.insert_move_sequence P q) P = some u := by
  rw [insert_move_sequence_eq_insertPath]
  exact pathNode_insertPath_of_present P q hp

theorem reinsert_leaves_end_node_unchanged_witness :
    pathNode (GameTree.mk "*" true 0 [GameTree.mk "a" false 0 []]) ["a"]
      = some (GameTree.mk "a" false 0 []) ∧
    pathNode ((GameTree.mk "*" true 0
        [GameTree.mk "a" false 0 []]).insert_move_sequence ["a"] 1) ["a"]
      = some (GameTree.mk "a" false 0 []) := by
  have hp : pathNode (GameTree.mk "*" true 0 [GameTree.mk "a" false 0 []]) ["a"]
      = some (GameTree.mk "a" false 0 []) := by rfl
  exact ⟨hp, reinsert_leaves_end_node_unchanged _ ["a"] 1 _ hp⟩

/-- Claim C5: all public operations preserve the invariant that every node's
`white_win_probability` lies in `[0, 1]`: construction with a probability in
range yields a tree in range, `add_subtree` of in-range trees stays in
range, and `insert_move_sequence` with an outcome in `[0, 1]` stays in
range. -/
theorem inRange_invariant (m : String) (w : Bool) (p q : ℚ) (t s : GameTree)
    (P : List String) :
    (0 ≤ p → p ≤ 1 → InRange (GameTree.mk m w p [])) ∧
    (InRange t → InRange s → InRange (t.add_subtree s)) ∧
    (InRange t → 0 ≤ q → q ≤ 1 → InRange (t.insert_move_sequence P q)) := by
  refine ⟨?_, inRange_add_subtree, ?_⟩
  · intro h0 h1
    rw [inRange_def]
    exact ⟨by simpa using h0, by simpa using h1, by simp⟩
  · intro ht h0 h1
    rw [insert_move_sequence_eq_insertPath]
    exact inRange_insertPath P ht h0 h1

theorem inRange_invariant_witness :
    ((0 : ℚ) ≤ 1/2 ∧ (1/2 : ℚ) ≤ 1) ∧
    InRange ((GameTree.mk "*" true 0 []).insert_move_sequence ["a", "b"] (1/2)) := by
  have ht : InRange (GameTree.mk "*" true 0 []) := by
    rw [inRange_def]
    refine ⟨le_refl 0, by norm_num, by simp⟩
  refine ⟨⟨by norm_num, by norm_num⟩, ?_⟩
  exact (inRange_invariant "*" true 0 (1/2) (GameTree.mk "*" true 0 [])
    (GameTree.mk "*" true 0 []) ["a", "b"]).2.2 ht (by norm_num) (by norm_num)

theorem scanFold_mem : ∀ (l : List GameTree) (b : ℚ) (cur : Option GameTree) (c : GameTree),
    (l.foldl (fun acc s =>
        if acc.1 < s.white_win_probability then (s.white_win_probability, some s) else acc)
      (b, cur)).2 = some c → c ∈ l ∨ cur = some c := by
  intro l
  induction l with
  | nil => intro b cur c h; exact Or.inr h
  | cons s ss ih =>
    intro b cur c h
    rw [List.foldl_cons] at h
    by_cases hb : b < s.white_win_probability
    · rw [if_pos hb] at h
      rcases ih _ _ _ h with hm | hc
      · exact Or.inl (List.mem_cons_of_mem _ hm)
      · rw [Option.some.injEq] at hc
        subst hc
        exact Or.inl (List.mem_cons_self _ _)
    · rw [if_neg hb] at h
      rcases ih _ _ _ h with hm | hc
      · exact Or.inl (List.mem_cons_of_mem _ hm)
      · exact Or.inr hc

theorem scanFoldMin_mem : ∀ (l : List GameTree) (b : ℚ) (cur : Option GameTree) (c : GameTree),
    (l.foldl (fun acc s =>
        if s.white_win_probability < acc.1 then (s.white_win_probability, some s) else acc)
      (b, cur)).2 = some c → c ∈ l ∨ cur = some c := by
  intro l
  induction l with
  | nil => intro b cur c h; exact Or.inr h
  | cons s ss ih =>
    intro b cur c h
    rw [List.foldl_cons] at h
    by_cases hb : s.white_win_probability < b
    · rw [if_pos hb] at h
      rcases ih _ _ _ h with hm | hc
      · exact Or.inl (List.mem_cons_of_mem _ hm)
      · rw [Option.some.injEq] at hc
        subst hc
        exact Or.inl (List.mem_cons_self _ _)
    · rw [if_neg hb] at h
      rcases ih _ _ _ h with hm | hc
      · exact Or.inl (List.mem_cons_of_mem _ hm)
      · exact Or.inr hc

theorem scanFold_of_all_le : ∀ (l : List GameTree) (b : ℚ) (cur : Option GameTree),
    (∀ s ∈ l, s.white_win_probability ≤ b) →
    l.foldl (fun acc s =>
        if acc.1 < s.white_win_probability then (s.white_win_probability, some s) else acc)
      (b, cur) = (b, cur) := by
  intro l
  induction l with
  | nil => intro b cur _; rfl
  | cons s ss ih =>
    intro b cur h
    rw [List.foldl_cons, if_neg (not_lt.mpr (h s (List.mem_cons_self _ _)))]
    exact ih b cur (fun x hx => h x (List.mem_cons_of_mem _ hx))

theorem foldMax_of_all_le {l : List GameTree} {b : ℚ}
    (h : ∀ s ∈ l, s.white_win_probability ≤ b) :
    l.foldl (fun a s => max a s.white_win_probability) b = b := by
  induction l with
  | nil => rfl
  | cons s ss ih =>
    rw [List.foldl_cons, max_eq_left (h s (List.mem_cons_self _ _))]
    exact ih (fun x hx => h x (List.mem_cons_of_mem _ hx))

theorem scanFold_of_exists : ∀ (l : List GameTree) (b : ℚ) (cur : Option GameTree),
    (∃ s ∈ l, b < s.white_win_probability) →
    l.foldl (fun acc s =>
        if acc.1 < s.white_win_probability then (s.white_win_probability, some s) else acc)
      (b, cur)
      = (l.foldl (fun a s => max a s.white_win_probability) b,
         l.find? (fun s => s.white_win_probability
           == l.foldl (fun a s => max a s.white_win_probability) b)) := by
  intro l
  induction l with
  | nil =>
    intro b cur h
    simp at h
  | cons s ss ih =>
    intro b cur h
    rw [List.foldl_cons, List.foldl_cons]
    by_cases hb : b < s.white_win_probability
    · rw [if_pos hb, max_eq_right (le_of_lt hb)]
      by_cases hx : ∃ x ∈ ss, s.white_win_probability < x.white_win_probability
      · rcases hx with ⟨x, hxm, hxl⟩
        rw [ih _ _ ⟨x, hxm, hxl⟩]
        have hsM : s.white_win_probability
            < ss.foldl (fun a s => max a s.white_win_probability) s.white_win_probability :=
          lt_of_lt_of_le hxl (foldMax_ub _ _ _ hxm)
        have hbeq : (s.white_win_probability
            == ss.foldl (fun a s => max a s.white_win_probability) s.white_win_probability)
            = false := by
          simp only [beq_eq_false_iff_ne]
          exact ne_of_lt hsM
        rw [List.find?_cons, hbeq]
      · push_neg at hx
        rw [scanFold_of_all_le _ _ _ hx, foldMax_of_all_le hx]
        rw [List.find?_cons]
        have hbeq : (s.white_win_probability == s.white_win_probability) = true := by simp
        rw [hbeq]
    · rw [if_neg hb]
      have hble : s.white_win_probability ≤ b := not_lt.mp hb
      rcases h with ⟨x, hxm, hxl⟩
      rcases List.mem_cons.mp hxm with hxe | hxss
      · subst hxe
        exact absurd hxl hb
      · rw [max_eq_left hble, ih _ _ ⟨x, hxss, hxl⟩]
        have hbM : b < ss.foldl (fun a s => max a s.white_win_probability) b :=
          lt_of_lt_of_le hxl (foldMax_ub _ _ _ hxss)
        have hbeq : (s.white_win_probability
            == ss.foldl (fun a s => max a s.white_win_probability) b) = false := by
          simp only [beq_eq_false_iff_ne]
          exact ne_of_lt (lt_of_le_of_lt hble hbM)
        rw [List.find?_cons, hbeq]

theorem foldMax_shift : ∀ (l : List GameTree) (a b : ℚ),
    l.foldl (fun x s => max x s.white_win_probability) (max a b)
      = max a (l.foldl (fun x s => max x s.white_win_probability) b) := by
  intro l
  induction l with
  | nil => intro a b; rfl
  | cons c cs ih =>
    intro a b
    rw [List.foldl_cons, List.foldl_cons, max_assoc, ih]

theorem foldMax_zero_eq_maxProbs {l : List GameTree}
    (h : ∃ x ∈ l, 0 < x.white_win_probability) :
    l.foldl (fun a s => max a s.white_win_probability) 0 = maxProbs l := by
  cases l with
  | nil => simp at h
  | cons c cs =>
    rw [List.foldl_cons, foldMax_shift, maxProbs]
    rcases h with ⟨x, hxm, hxl⟩
    have hx2 : x.white_win_probability ≤ maxProbs (c :: cs) := maxProbs_ub hxm
    rw [maxProbs] at hx2
    exact max_eq_right (le_trans (le_of_lt hxl) hx2)

theorem listChoice_mem {α : Type} [Inhabited α] {l : List α} (hne : l ≠ []) (i : Nat) :
    listChoice l i ∈ l := by
  rw [listChoice]
  have hlen : 0 < l.length := List.length_pos.mpr hne
  have hmod : i % l.length < l.length := Nat.mod_lt _ hlen
  rw [List.getD_eq_getElem?_getD, List.getElem?_eq_getElem hmod]
  exact List.getElem_mem _

theorem descend_none (prev : Option String) : descend none prev = none := by
  cases prev <;> rfl

/-- Claim C7: when `GreedyTreePlayer.make_move` runs on a held position that
is present and has children and it is White's turn: if some child has
probability strictly greater than 0 it deterministically returns the first
child attaining the maximum `white_win_probability` and moves into it;
if no child's probability exceeds 0 it picks a random child (the oracle's
index) and the held position becomes that child, not absent. -/
theorem greedy_white_selection (gt : Option GameTree) (game : MinichessGame)
    (prev : Option String) (o : Oracle) (t : GameTree)
    (hd : descend gt prev = some t) (hne : t.get_subtrees ≠ [])
    (hw : game.is_white_move = true) :
    ((∃ c ∈ t.get_subtrees, 0 < c.white_win_probability) →
      ∃ c0, t.get_subtrees.find?
            (fun s => s.white_win_probability == maxProbs t.get_subtrees) = some c0 ∧
        GreedyTreePlayer.make_move gt game prev o = (c0.move, some c0)) ∧
    ((∀ c ∈ t.get_subtrees, ¬ 0 < c.white_win_probability) →
      GreedyTreePlayer.make_move gt game prev o
          = ((listChoice t.get_subtrees o.idxSubs).move,
             some (listChoice t.get_subtrees o.idxSubs)) ∧
      listChoice t.get_subtrees o.idxSubs ∈ t.get_subtrees) := by
  have hie : t.get_subtrees.isEmpty = false := by
    cases hsub : t.get_subtrees with
    | nil => exact absurd hsub hne
    | cons a as => rfl
  constructor
  · intro hex
    have hscan := scanFold_of_exists t.get_subtrees 0 none hex
    rw [foldMax_zero_eq_maxProbs hex] at hscan
    have hmem := maxProbs_mem hne
    rcases List.mem_map.mp hmem with ⟨c0, hc0m, hc0p⟩
    have hsome : (t.get_subtrees.find?
        (fun s => s.white_win_probability == maxProbs t.get_subtrees)).isSome :=
      List.find?_isSome.mpr ⟨c0, hc0m, by simp [hc0p]⟩
    rcases Option.isSome_iff_exists.mp hsome with ⟨c1, hc1⟩
    refine ⟨c1, hc1, ?_⟩
    rw [GreedyTreePlayer.make_move, hd]
    simp only [hie, Bool.false_eq_true, if_false, hw, if_true]
    rw [scanMax, hscan]
    simp only [hc1]
  · intro hall
    have hle : ∀ s ∈ t.get_subtrees, s.white_win_probability ≤ 0 :=
      fun s hs => not_lt.mp (hall s hs)
    have hscan := scanFold_of_all_le t.get_subtrees 0 none hle
    constructor
    · rw [GreedyTreePlayer.make_move, hd]
      simp only [hie, Bool.false_eq_true, if_false, hw, if_true]
      rw [scanMax, hscan]
    · exact listChoice_mem hne _

theorem greedy_white_selection_witness :
    GreedyTreePlayer.make_move
        (some (GameTree.mk "*" true 0
          [GameTree.mk "a" false 0 [], GameTree.mk "b" false 1 [],
           GameTree.mk "c" false 0 []]))
        (MinichessGame.mk none true []) none ⟨0, 0, 0⟩
      = ("b", some (GameTree.mk "b" false 1 [])) := by
  have h := (greedy_white_selection
      (some (GameTree.mk "*" true 0
        [GameTree.mk "a" false 0 [], GameTree.mk "b" false 1 [],
         GameTree.mk "c" false 0 []]))
      (MinichessGame.mk none true []) none ⟨0, 0, 0⟩
      (GameTree.mk "*" true 0
        [GameTree.mk "a" false 0 [], GameTree.mk "b" false 1 [],
         GameTree.mk "c" false 0 []])
      rfl (by simp [GameTree.get_subtrees]) rfl).1
      ⟨GameTree.mk "b" false 1 [], by simp [GameTree.get_subtrees], by norm_num⟩
  rcases h with ⟨c0, hc0, hmm⟩
  have hv : (GameTree.mk "*" true 0
      [GameTree.mk "a" false 0 [], GameTree.mk "b" false 1 [],
       GameTree.mk "c" false 0 []]).get_subtrees.find?
        (fun s => s.white_win_probability == maxProbs (GameTree.mk "*" true 0
          [GameTree.mk "a" false 0 [], GameTree.mk "b" false 1 [],
           GameTree.mk "c" false 0 []]).get_subtrees)
      = some (GameTree.mk "b" false 1 []) := by rfl
  rw [hv] at hc0
  rw [Option.some.injEq] at hc0
  subst hc0
  exact hmm

/-- Claim C8: with exploration probability 0 and a uniform draw `u ≥ 0` (as
`random.uniform(0.0, 1.0)` always returns), `ExploringPlayer.make_move`
returns the same move and performs the same held-position update as
`GreedyTreePlayer.make_move` on the same tree, state, previous move and
random draws. -/
theorem exploring_zero_matches_greedy (gt : Option GameTree) (game : MinichessGame)
    (prev : Option String) (o : Oracle) (hu : 0 ≤ o.u) :
    ExploringPlayer.make_move gt 0 game prev o = GreedyTreePlayer.make_move gt game prev o := by
  rw [ExploringPlayer.make_move, GreedyTreePlayer.make_move]
  cases hd : descend gt prev
  · rfl
  · rename_i t
    cases hie : t.get_subtrees.isEmpty
    · simp only [hie, Bool.false_eq_true, if_false]
      rw [if_neg (not_lt.mpr hu), ExploringPlayer.helper_function2]
    · simp only [hie, if_true]

theorem exploring_zero_matches_greedy_witness :
    (0 : ℚ) ≤ 0 ∧
    ExploringPlayer.make_move (some (GameTree.mk "*" true 0 [GameTree.mk "a" false 1 []]))
        0 (MinichessGame.mk none true [("x", MinichessGame.mk none false [])]) none ⟨0, 0, 0⟩
      = GreedyTreePlayer.make_move (some (GameTree.mk "*" true 0 [GameTree.mk "a" false 1 []]))
        (MinichessGame.mk none true [("x", MinichessGame.mk none false [])]) none ⟨0, 0, 0⟩ :=
  ⟨le_refl 0, exploring_zero_matches_greedy
    (some (GameTree.mk "*" true 0 [GameTree.mk "a" false 1 []]))
    (MinichessGame.mk none true [("x", MinichessGame.mk none false [])]) none ⟨0, 0, 0⟩
    (le_refl 0)⟩

theorem random_make_move_none_snd (game : MinichessGame) (prev : Option String)
    (o : Oracle) : (RandomTreePlayer.make_move none game prev o).2 = none := by
  rw [RandomTreePlayer.make_move, descend_none]

theorem greedy_make_move_none_snd (game : MinichessGame) (prev : Option String)
    (o : Oracle) : (GreedyTreePlayer.make_move none game prev o).2 = none := by
  rw [GreedyTreePlayer.make_move, descend_none]

theorem exploring_make_move_none_snd (p : ℚ) (game : MinichessGame) (prev : Option String)
    (o : Oracle) : (ExploringPlayer.make_move none p game prev o).2 = none := by
  rw [ExploringPlayer.make_move, descend_none]

theorem random_play_from_none (calls : List (MinichessGame × Option String × Oracle)) :
    RandomTreePlayer.play_from none calls = none := by
  induction calls with
  | nil => rfl
  | cons c cs ih =>
    rw [RandomTreePlayer.play_from, List.foldl_cons, random_make_move_none_snd]
    exact ih

theorem greedy_play_from_none (calls : List (MinichessGame × Option String × Oracle)) :
    GreedyTreePlayer.play_from none calls = none := by
  induction calls with
  | nil => rfl
  | cons c cs ih =>
    rw [GreedyTreePlayer.play_from, List.foldl_cons, greedy_make_move_none_snd]
    exact ih

theorem exploring_play_from_none (calls : List (ℚ × MinichessGame × Option String × Oracle)) :
    ExploringPlayer.play_from none calls = none := by
  induction calls with
  | nil => rfl
  | cons c cs ih =>
    rw [ExploringPlayer.play_from, List.foldl_cons, exploring_make_move_none_snd]
    exact ih

/-- Claim C9: for each of the three strategies, when the held position after
descending by the opponent's previous move is absent or childless,
`make_move` returns a uniformly random valid move (the oracle's index into
`game.get_valid_moves()`) and sets the held position to absent; and a held
position that is absent stays absent through every later `make_move` call of
the same game. -/
theorem strategies_leave_tree (gt : Option GameTree) (game : MinichessGame)
    (prev : Option String) (o : Oracle) (p : ℚ)
    (hd : ∀ t, descend gt prev = some t → t.get_subtrees = []) :
    RandomTreePlayer.make_move gt game prev o
        = (listChoice game.get_valid_moves o.idxMoves, none) ∧
    GreedyTreePlayer.make_move gt game prev o
        = (listChoice game.get_valid_moves o.idxMoves, none) ∧
    ExploringPlayer.make_move gt p game prev o
        = (listChoice game.get_valid_moves o.idxMoves, none) ∧
    (∀ calls, RandomTreePlayer.play_from none calls = none) ∧
    (∀ calls, GreedyTreePlayer.play_from none calls = none) ∧
    (∀ calls, ExploringPlayer.play_from none calls = none) := by
  refine ⟨?_, ?_, ?_, random_play_from_none, greedy_play_from_none, exploring_play_from_none⟩
  · rw [RandomTreePlayer.make_move]
    cases hdm : descend gt prev
    · rfl
    · rename_i t
      have hie : t.get_subtrees.isEmpty = true := by rw [hd t hdm]; rfl
      simp only [hie, if_true]
  · rw [GreedyTreePlayer.make_move]
    cases hdm : descend gt prev
    · rfl
    · rename_i t
      have hie : t.get_subtrees.isEmpty = true := by rw [hd t hdm]; rfl
      simp only [hie, if_true]
  · rw [ExploringPlayer.make_move]
    cases hdm : descend gt prev
    · rfl
    · rename_i t
      have hie : t.get_subtrees.isEmpty = true := by rw [hd t hdm]; rfl
      simp only [hie, if_true]

theorem strategies_leave_tree_witness :
    (∀ t : GameTree, descend none (some "x") = some t → t.get_subtrees = []) ∧
    RandomTreePlayer.make_move none
        (MinichessGame.mk none true [("y", MinichessGame.mk none false [])]) (some "x")
        ⟨0, 0, 0⟩
      = (listChoice (MinichessGame.mk none true
          [("y", MinichessGame.mk none false [])]).get_valid_moves 0, none) := by
  have hd : ∀ t : GameTree, descend none (some "x") = some t → t.get_subtrees = [] := by
    intro t ht
    rw [descend_none] at ht
    exact absurd ht (by simp)
  exact ⟨hd, (strategies_leave_tree none
    (MinichessGame.mk none true [("y", MinichessGame.mk none false [])]) (some "x")
    ⟨0, 0, 0⟩ 0 hd).1⟩

/-- Claim C10: for `RandomTreePlayer` and `GreedyTreePlayer`, when the held
position after descending by the opponent's previous move is present and has
children, the returned move is the move label of one of that position's
children, the held position becomes exactly that child, and the result never
consults `game.get_valid_moves()`: it is unchanged under any replacement of
the game state (for the greedy player, any replacement with the same side to
move). -/
theorem tree_move_selects_child (gt : Option GameTree) (game : MinichessGame)
    (prev : Option String) (o : Oracle) (t : GameTree)
    (hd : descend gt prev = some t) (hne : t.get_subtrees ≠ []) :
    (∃ c ∈ t.get_subtrees, RandomTreePlayer.make_move gt game prev o = (c.move, some c)) ∧
    (∃ c ∈ t.get_subtrees, GreedyTreePlayer.make_move gt game prev o = (c.move, some c)) ∧
    (∀ game2 : MinichessGame,
      RandomTreePlayer.make_move gt game2 prev o = RandomTreePlayer.make_move gt game prev o) ∧
    (∀ game2 : MinichessGame, game2.is_white_move = game.is_white_move →
      GreedyTreePlayer.make_move gt game2 prev o = GreedyTreePlayer.make_move gt game prev o) := by
  have hie : t.get_subtrees.isEmpty = false := by
    cases hsub : t.get_subtrees with
    | nil => exact absurd hsub hne
    | cons a as => rfl
  refine ⟨?_, ?_, ?_, ?_⟩
  · refine ⟨listChoice t.get_subtrees o.idxSubs, listChoice_mem hne _, ?_⟩
    rw [RandomTreePlayer.make_move, hd]
    simp only [hie, Bool.false_eq_true, if_false]
  · rw [GreedyTreePlayer.make_move, hd]
    simp only [hie, Bool.false_eq_true, if_false]
    cases hw : game.is_white_move
    · simp only [Bool.false_eq_true, if_false]
      cases hscan : (scanMin t.get_subtrees).2
      · exact ⟨listChoice t.get_subtrees o.idxSubs, listChoice_mem hne _, rfl⟩
      · rename_i c
        refine ⟨c, ?_, rfl⟩
        rcases scanFoldMin_mem t.get_subtrees 1 none c hscan with hm | hc
        · exact hm
        · simp at hc
    · simp only [if_true]
      cases hscan : (scanMax t.get_subtrees).2
      · exact ⟨listChoice t.get_subtrees o.idxSubs, listChoice_mem hne _, rfl⟩
      · rename_i c
        refine ⟨c, ?_, rfl⟩
        rcases scanFold_mem t.get_subtrees 0 none c hscan with hm | hc
        · exact hm
        · simp at hc
  · intro game2
    rw [RandomTreePlayer.make_move, RandomTreePlayer.make_move, hd]
    simp only [hie, Bool.false_eq_true, if_false]
  · intro game2 hw2
    rw [GreedyTreePlayer.make_move, GreedyTreePlayer.make_move, hd]
    simp only [hie, Bool.false_eq_true, if_false, hw2]

theorem tree_move_selects_child_witness :
    descend (some (GameTree.mk "*" true 0 [GameTree.mk "a" false 1 []])) none
        = some (GameTree.mk "*" true 0 [GameTree.mk "a" false 1 []]) ∧
    (GameTree.mk "*" true 0 [GameTree.mk "a" false 1 []]).get_subtrees ≠ [] ∧
    (∃ c ∈ (GameTree.mk "*" true 0 [GameTree.mk "a" false 1 []]).get_subtrees,
      RandomTreePlayer.make_move (some (GameTree.mk "*" true 0 [GameTree.mk "a" false 1 []]))
          (MinichessGame.mk none true []) none ⟨0, 0, 0⟩ = (c.move, some c)) := by
  have hd : descend (some (GameTree.mk "*" true 0 [GameTree.mk "a" false 1 []])) none
      = some (GameTree.mk "*" true 0 [GameTree.mk "a" false 1 []]) := rfl
  have hne : (GameTree.mk "*" true 0 [GameTree.mk "a" false 1 []]).get_subtrees ≠ [] := by
    simp [GameTree.get_subtrees]
  exact ⟨hd, hne, (tree_move_selects_child
    (some (GameTree.mk "*" true 0 [GameTree.mk "a" false 1 []]))
    (MinichessGame.mk none true []) none ⟨0, 0, 0⟩
    (GameTree.mk "*" true 0 [GameTree.mk "a" false 1 []]) hd hne).1⟩

theorem add_subtree_move (t c : GameTree) : (t.add_subtree c).move = t.move := by
  rw [GameTree.add_subtree, GameTree.update_move, GameTree.move_mk]

theorem add_subtree_is_white_move (t c : GameTree) :
    (t.add_subtree c).is_white_move = t.is_white_move := by
  rw [GameTree.add_subtree, GameTree.update_is_white_move, GameTree.is_white_move_mk]

theorem add_subtree_subtrees (t c : GameTree) :
    (t.add_subtree c).subtrees = t.subtrees ++ [c] := by
  rw [GameTree.add_subtree, GameTree.update_subtrees, GameTree.subtrees_mk]

theorem foldl_add_subtree_move : ∀ (l : List GameTree) (t : GameTree),
    (l.foldl GameTree.add_subtree t).move = t.move := by
  intro l
  induction l with
  | nil => intro t; rfl
  | cons c cs ih =>
    intro t
    rw [List.foldl_cons, ih, add_subtree_move]

theorem foldl_add_subtree_subtrees : ∀ (l : List GameTree) (t : GameTree),
    (l.foldl GameTree.add_subtree t).subtrees = t.subtrees ++ l := by
  intro l
  induction l with
  | nil => intro t; simp
  | cons c cs ih =>
    intro t
    rw [List.foldl_cons, ih, add_subtree_subtrees]
    simp

theorem gen_zero (r : String) (g : MinichessGame) :
    generate_complete_game_tree r g 0
      = GameTree.mk r g.is_white_move
          (if g.get_winner = some Winner.white then 1 else 0) [] := by
  by_cases hw : g.get_winner = some Winner.white <;>
    simp [generate_complete_game_tree, hw]

theorem gen_move (r : String) (g : MinichessGame) (d : Nat) :
    (generate_complete_game_tree r g d).move = r := by
  cases d with
  | zero => rw [gen_zero, GameTree.move_mk]
  | succ d =>
    rw [generate_complete_game_tree, foldl_add_subtree_move]
    by_cases hw : g.get_winner = some Winner.white <;> simp [hw]

theorem gen_subtrees_succ (r : String) (g : MinichessGame) (d : Nat) :
    (generate_complete_game_tree r g (d + 1)).subtrees
      = g.moves.map (fun pr => generate_complete_game_tree pr.1 pr.2 d) := by
  rw [generate_complete_game_tree, foldl_add_subtree_subtrees]
  by_cases hw : g.get_winner = some Winner.white <;> simp [hw]

theorem heightList_le {l : List GameTree} {d : Nat} (h : ∀ c ∈ l, c.height ≤ d) :
    heightList l ≤ d := by
  induction l with
  | nil => simp [heightList]
  | cons c cs ih =>
    rw [heightList]
    exact max_le (h c (List.mem_cons_self _ _))
      (ih (fun x hx => h x (List.mem_cons_of_mem _ hx)))

theorem height_le_of_subtrees {t : GameTree} {d : Nat}
    (h : ∀ c ∈ t.subtrees, c.height ≤ d) : t.height ≤ d + 1 := by
  cases t with
  | mk m w p s =>
    cases s with
    | nil => simp [GameTree.height]
    | cons c cs =>
      rw [GameTree.height]
      have hl : heightList (c :: cs) ≤ d := heightList_le (fun x hx => h x hx)
      omega

theorem gen_height_le (d : Nat) : ∀ (r : String) (g : MinichessGame),
    (generate_complete_game_tree r g d).height ≤ d := by
  induction d with
  | zero =>
    intro r g
    rw [gen_zero]
    simp [GameTree.height]
  | succ d ih =>
    intro r g
    apply height_le_of_subtrees
    intro c hc
    rw [gen_subtrees_succ] at hc
    rcases List.mem_map.mp hc with ⟨pr, _, hpe⟩
    rw [← hpe]
    exact ih pr.1 pr.2

theorem leafPaths_eq (t : GameTree) :
    leafPaths t = if t.subtrees.isEmpty then [[]] else leafPathsList t.subtrees := by
  cases t with
  | mk m w p s =>
    cases s with
    | nil => rfl
    | cons c cs => rfl

theorem leafPathsList_mem (l : List GameTree) (q : List String) :
    q ∈ leafPathsList l ↔ ∃ c ∈ l, ∃ q2 ∈ leafPaths c, q = c.move :: q2 := by
  induction l with
  | nil => simp [leafPathsList]
  | cons c cs ih =>
    rw [leafPathsList, List.mem_append, ih]
    constructor
    · rintro (hin | ⟨c2, hc2, q2, hq2, he⟩)
      · rcases List.mem_map.mp hin with ⟨q2, hq2, he⟩
        exact ⟨c, List.mem_cons_self _ _, q2, hq2, he.symm⟩
      · exact ⟨c2, List.mem_cons_of_mem _ hc2, q2, hq2, he⟩
    · rintro ⟨c2, hc2, q2, hq2, he⟩
      rcases List.mem_cons.mp hc2 with he2 | hm2
      · subst he2
        exact Or.inl (List.mem_map.mpr ⟨q2, hq2, he.symm⟩)
      · exact Or.inr ⟨c2, hm2, q2, hq2, he⟩

theorem find?_pair_of_nodup {l : List (String × MinichessGame)} {mv : String}
    {g2 : MinichessGame} (hnd : (l.map Prod.fst).Nodup) (hm : (mv, g2) ∈ l) :
    l.find? (fun pr => pr.1 == mv) = some (mv, g2) := by
  induction l with
  | nil => simp at hm
  | cons a rest ih =>
    rw [List.map_cons, List.nodup_cons] at hnd
    rcases List.mem_cons.mp hm with he | hrest
    · rw [← he, List.find?_cons]
      have hb : ((mv, g2).1 == mv) = true := by simp
      rw [hb]
    · have hmv : mv ∈ rest.map Prod.fst :=
        List.mem_map.mpr ⟨(mv, g2), hrest, rfl⟩
      have hb : (a.1 == mv) = false := by
        rw [beq_eq_false_iff_ne]
        intro he2
        exact hnd.1 (he2 ▸ hmv)
      rw [List.find?_cons, hb]
      exact ih hnd.2 hrest

theorem engineWFList_iff (l : List (String × MinichessGame)) :
    EngineWFList l ↔ ∀ pr ∈ l, EngineWF pr.2 := by
  induction l with
  | nil => simp [EngineWFList]
  | cons a rest ih =>
    obtain ⟨mv, g⟩ := a
    rw [EngineWFList, ih]
    constructor
    · rintro ⟨h1, h2⟩ pr hpr
      rcases List.mem_cons.mp hpr with he | hm
      · rw [he]; exact h1
      · exact h2 pr hm
    · intro h
      exact ⟨h (mv, g) (List.mem_cons_self _ _),
        fun pr hpr => h pr (List.mem_cons_of_mem _ hpr)⟩

theorem engineWF_def (g : MinichessGame) :
    EngineWF g ↔ (g.moves.map Prod.fst).Nodup ∧ ∀ pr ∈ g.moves, EngineWF pr.2 := by
  cases g with
  | mk w b ms =>
    rw [EngineWF]
    simp [engineWFList_iff, MinichessGame.moves]

theorem gen_leafPaths (d : Nat) : ∀ (r : String) (g : MinichessGame), EngineWF g →
    ∀ q ∈ leafPaths (generate_complete_game_tree r g d),
      q.length = d ∨ ∃ g2, stateAfter g q = some g2 ∧ g2.get_valid_moves = [] := by
  induction d with
  | zero =>
    intro r g _ q hq
    rw [gen_zero, leafPaths_eq] at hq
    simp at hq
    left
    rw [hq]
    rfl
  | succ d ih =>
    intro r g hwf q hq
    by_cases hms : g.moves = []
    · right
      have hsub : (generate_complete_game_tree r g (d + 1)).subtrees = [] := by
        rw [gen_subtrees_succ, hms]
        rfl
      rw [leafPaths_eq, hsub] at hq
      simp at hq
      rw [hq]
      exact ⟨g, rfl, by rw [MinichessGame.get_valid_moves, hms]; rfl⟩
    · have hsub := gen_subtrees_succ r g d
      have hie : (generate_complete_game_tree r g (d + 1)).subtrees.isEmpty = false := by
        rw [hsub]
        cases hmm : g.moves with
        | nil => exact absurd hmm hms
        | cons a as => rfl
      rw [leafPaths_eq] at hq
      simp only [hie, Bool.false_eq_true, if_false] at hq
      rw [hsub, leafPathsList_mem] at hq
      rcases hq with ⟨c, hcm, q2, hq2, he⟩
      rcases List.mem_map.mp hcm with ⟨pr, hpr, hpe⟩
      obtain ⟨mv, g2⟩ := pr
      subst he
      rw [← hpe] at hq2 ⊢
      rw [engineWF_def] at hwf
      have hwf2 : EngineWF g2 := hwf.2 (mv, g2) hpr
      rcases ih mv g2 hwf2 q2 hq2 with hlen | ⟨g3, hg3, hterm⟩
      · left
        rw [List.length_cons, hlen]
      · right
        refine ⟨g3, ?_, hterm⟩
        rw [gen_move, stateAfter, MinichessGame.copy_and_make_move,
          find?_pair_of_nodup hwf.1 hpr]
        exact hg3

/-- Claim C6: for every well-formed game state and every depth `d`,
`generate_complete_game_tree` returns a tree with no path longer than `d`
edges from the root, in which every leaf is at depth exactly `d` or
corresponds to a state with no valid moves; for `d = 0` it returns a single
childless node whose win probability is 1 when the state is already a White
win and the default 0 otherwise. -/
theorem generate_complete_game_tree_spec (r : String) (g : MinichessGame) (d : Nat)
    (hwf : EngineWF g) :
    (generate_complete_game_tree r g d).height ≤ d ∧
    (∀ q ∈ leafPaths (generate_complete_game_tree r g d),
      q.length = d ∨ ∃ g2, stateAfter g q = some g2 ∧ g2.get_valid_moves = []) ∧
    generate_complete_game_tree r g 0
      = GameTree.mk r g.is_white_move
          (if g.get_winner = some Winner.white then 1 else 0) [] :=
  ⟨gen_height_le d r g, gen_leafPaths d r g hwf, gen_zero r g⟩

theorem generate_complete_game_tree_spec_witness :
    EngineWF (MinichessGame.mk (some Winner.white) true
      [("m", MinichessGame.mk none false [])]) ∧
    (generate_complete_game_tree "*" (MinichessGame.mk (some Winner.white) true
      [("m", MinichessGame.mk none false [])]) 1).height ≤ 1 := by
  have hleaf : EngineWF (MinichessGame.mk none false []) := by
    rw [engineWF_def]
    simp [MinichessGame.moves]
  have hwf : EngineWF (MinichessGame.mk (some Winner.white) true
      [("m", MinichessGame.mk none false [])]) := by
    rw [engineWF_def]
    constructor
    · simp [MinichessGame.moves]
    · intro pr hpr
      rw [MinichessGame.moves] at hpr
      rw [List.mem_singleton] at hpr
      rw [hpr]
      exact hleaf
  exact ⟨hwf, (generate_complete_game_tree_spec "*" (MinichessGame.mk (some Winner.white)
    true [("m", MinichessGame.mk none false [])]) 1 hwf).1⟩
